import Mathlib

/-!
Verification of the side-by-side comparison tool `contrib/sbs/sbs.go`.

The development shallowly embeds the three pure cores of the program:

* `getReq` — the regex-based extraction of a query request from a log line
  (regexes `isQuery`, `queryRe`, `varRe`, `keyRe`, `valRe` and
  `strconv.Unquote`).  The Go regexes are non-greedy leftmost-first patterns
  over a single line; they are modelled by explicit first-occurrence
  scanning functions over `List Char`.
* `areEqualJSON` — `json.Unmarshal` into dynamic values followed by
  `reflect.DeepEqual`.  JSON documents are modelled by the inductive `Json`
  (numbers as rationals in place of IEEE `float64`; the escape set of the
  string parser covers the common JSON escapes), and `DeepEqual` on the
  unmarshalled dynamic values by the order-insensitive `jeq`.
* the worker pool of `processLog` — a small-step interleaving machine whose
  atomic actions are exactly the shared-state operations of a worker
  (dequeue, left call, right call, atomic failed-increment fused with the
  local comparison, atomic total-increment).
-/

/-- Log lines and payloads are single lines of text, modelled as `List Char`. -/
abbrev Str := List Char

/-- Coercion helper from Lean string literals. -/
def strL (s : String) : Str := s.toList

/-- Split a list at the first occurrence of the character `c`
(`c` itself is dropped): model of a non-greedy scan up to `c`. -/
def breakAt (c : Char) : Str → Option (Str × Str)
  | [] => none
  | x :: xs =>
    if x = c then some ([], xs)
    else
      match breakAt c xs with
      | none => none
      | some (a, b) => some (x :: a, b)

/-- The suffix following the first (leftmost) occurrence of the pattern
`pat` as a contiguous substring; `none` when `pat` does not occur.  This is
the model of matching the Go regex `pat(.*)` and keeping the capture. -/
def findAfter (pat : Str) (s : Str) : Option Str :=
  if pat.isPrefixOf s then some (s.drop pat.length)
  else
    match s with
    | [] => none
    | _ :: xs => findAfter pat xs

theorem breakAt_length {c : Char} : ∀ {s a b : Str}, breakAt c s = some (a, b) → b.length < s.length := by
  intro s
  induction s with
  | nil => intro a b h; simp [breakAt] at h
  | cons x xs ih =>
    intro a b h
    simp only [breakAt] at h
    by_cases hx : x = c
    · simp [hx] at h
      simp [← h.2]
    · simp only [hx, if_false] at h
      cases hb : breakAt c xs with
      | none => rw [hb] at h; simp at h
      | some p =>
        rw [hb] at h
        simp at h
        have := ih (a := p.1) (b := p.2) (by rw [hb])
        rw [← h.2]
        simp only [List.length_cons]
        omega

theorem findAfter_length {pat : Str} : ∀ {s r : Str}, findAfter pat s = some r → r.length ≤ s.length := by
  intro s
  induction s with
  | nil =>
    intro r h
    unfold findAfter at h
    by_cases hp : pat.isPrefixOf [] <;> simp [hp] at h
    simp [← h]
  | cons x xs ih =>
    intro r h
    unfold findAfter at h
    by_cases hp : pat.isPrefixOf (x :: xs)
    · simp [hp] at h
      have : r.length ≤ (x :: xs).length := by
        rw [← h]; exact (List.length_drop _ _) ▸ Nat.sub_le _ _
      exact this
    · simp [hp] at h
      exact Nat.le_succ_of_le (ih h)

/-- The marker of a query log line: the literal part of the Go regex
`isQuery = Got a query: query:(.*)`. -/
def marker : Str := strL ("Got a query: query:")

/-- Literal part of `varRe = vars:<.*?>`. -/
def patV : Str := strL ("vars:<")

/-- Literal part of `keyRe = key:"(.*?)"`. -/
def patK : Str := strL ("key:\"")

/-- Literal part of `valRe = value:"(.*?)"`. -/
def patW : Str := strL ("value:\"")

/-- Model of `queryRe.FindStringSubmatch` for `queryRe = ".*?"`: the text
strictly between the first double quote and the next one (the interior of
the leftmost, shortest quoted substring), or `none` when the line does not
contain two double quotes. -/
def firstQuoted (s : Str) : Option Str :=
  match breakAt '"' s with
  | none => none
  | some (_, r) =>
    match breakAt '"' r with
    | none => none
    | some (content, _) => some content

/-- All matches of `varRe = vars:<.*?>` in order (`FindAllStringSubmatch`):
repeatedly take the leftmost `vars:<`, extend non-greedily to the first `>`,
and continue after the match.  Each returned fragment includes the
delimiters, as `v[0]` does in the Go code. -/
def scanVarsF : Nat → Str → List Str
  | 0, _ => []
  | n + 1, s =>
    match findAfter patV s with
    | none => []
    | some r =>
      match breakAt '>' r with
      | none => []
      | some (body, rest) => (patV ++ body ++ ['>']) :: scanVarsF n rest

/-- `scanVarsF` with enough fuel: each iteration consumes at least the
six characters of `vars:<` plus the `>`, so `s.length + 1` rounds always
reach the end of the line (`scanVarsF_stable` below makes this exact). -/
def scanVars (s : Str) : List Str := scanVarsF (s.length + 1) s

/-- Capture group of `keyRe = key:"(.*?)"` on a fragment: text after the
leftmost `key:"` up to the next `"`; `none` when the regex does not match
(in Go the nil submatch then makes `keys[1]` panic). -/
def keyOf (frag : Str) : Option Str :=
  match findAfter patK frag with
  | none => none
  | some r => (breakAt '"' r).map (fun p => p.1)

/-- Capture group of `valRe = value:"(.*?)"` on a fragment. -/
def valOf (frag : Str) : Option Str :=
  match findAfter patW frag with
  | none => none
  | some r => (breakAt '"' r).map (fun p => p.1)

/-- Escape decoding for `strconv.Unquote`, restricted to the escapes that
occur in logged query strings. -/
def escCode (c : Char) : Option Char :=
  if c = '\\' then some '\\'
  else if c = '"' then some '"'
  else if c = 'n' then some '\n'
  else if c = 't' then some '\t'
  else if c = 'r' then some '\r'
  else none

/-- Model of `strconv.Unquote` applied to the quoted match `qm[0]`: the
argument is the interior of the quotes (which by construction of
`firstQuoted` contains no raw `"`); a backslash must begin a recognised
escape sequence and must not dangle at the end, otherwise unquoting fails
as Go's `strconv.Unquote` does. -/
def unesc : Str → Option Str
  | [] => some []
  | c :: rest =>
    if c = '\\' then
      match rest with
      | [] => none
      | d :: rest' =>
        match escCode d with
        | none => none
        | some e => (unesc rest').map (fun t => e :: t)
    else (unesc rest).map (fun t => c :: t)

/-- Outcome of `getReq`: a parsed request, the `error` return, or a Go
runtime panic (index out of range on a nil regex submatch). -/
inductive GetRes where
  | ok (query : Str) (vars : List (Str × Str))
  | err
  | panic
deriving DecidableEq

/-- The `for _, v := range varStr` loop body of `getReq`: extract
`keys[1]` and `vals[1]` from every fragment; a fragment on which `keyRe`
or `valRe` does not match makes the Go code panic (modelled as `none`). -/
def extractPairs : List Str → Option (List (Str × Str))
  | [] => some []
  | f :: fs =>
    match keyOf f, valOf f with
    | some k, some v => (extractPairs fs).map (fun ps => (k, v) :: ps)
    | _, _ => none

/-- Shallow embedding of `getReq` from `sbs.go`: find the marker, take the
first quoted substring of the remainder as the query, unquote it, then
collect `key`/`value` captures of every `vars:<...>` fragment.  The
variable map is represented by the association list of bindings in
line order; lookups use `mapGet`, which gives the Go-map semantics
(later bindings overwrite earlier ones). -/
def getReq (s : Str) : GetRes :=
  match findAfter marker s with
  | none => .err
  | some m1 =>
    match firstQuoted m1 with
    | none => .err
    | some content =>
      match unesc content with
      | none => .err
      | some q =>
        match extractPairs (scanVars m1) with
        | none => .panic
        | some ps => .ok q ps

/-- Lookup in an association list with Go-map write semantics: the value of
the last binding of the key wins, `none` when the key is unbound. -/
def mapGet : List (Str × Str) → Str → Option Str
  | [], _ => none
  | (k', v) :: rest, k =>
    match mapGet rest k with
    | some w => some w
    | none => if k' = k then some v else none

/-- A structured query request (`api.Request`): query text plus variable
bindings. -/
structure Req where
  query : Str
  vars : List (Str × Str)
deriving DecidableEq

/-- Dynamic JSON values, the model of what `json.Unmarshal` produces into
an `interface\x7b\x7d`: `nil`, `bool`, `float64` (modelled as `ℚ`), `string`,
`[]interface\x7b\x7d` and `map[string]interface\x7b\x7d` (modelled as an
association list with distinct keys). -/
inductive Json where
  | null
  | bool (b : Bool)
  | num (q : ℚ)
  | str (s : Str)
  | arr (xs : List Json)
  | obj (ps : List (Str × Json))

/-- First-match association lookup for JSON objects (the parser keeps keys
distinct, so first match and last match agree). -/
def alookup : List (Str × Json) → Str → Option Json
  | [], _ => none
  | (k', v) :: ps, k => if k' = k then some v else alookup ps k

/-- JSON whitespace. -/
def isWs (c : Char) : Bool := c = ' ' || c = '\t' || c = '\n' || c = '\r'

def skipWs (s : Str) : Str := s.dropWhile isWs

/-- JSON string escapes (`\"`, `\\`, `\/`, `\n`, `\t`, `\r`, `\b`, `\f`). -/
def escJson (c : Char) : Option Char :=
  if c = '"' then some '"'
  else if c = '\\' then some '\\'
  else if c = '/' then some '/'
  else if c = 'n' then some '\n'
  else if c = 't' then some '\t'
  else if c = 'r' then some '\r'
  else if c = 'b' then some (Char.ofNat 8)
  else if c = 'f' then some (Char.ofNat 12)
  else none

/-- Parse the body of a JSON string after the opening quote; returns the
decoded characters and the remainder after the closing quote. -/
def parseStrBody : Str → Option (Str × Str)
  | [] => none
  | c :: r =>
    if c = '"' then some ([], r)
    else if c = '\\' then
      match r with
      | [] => none
      | d :: r' =>
        match escJson d with
        | none => none
        | some e => (parseStrBody r').map (fun p => (e :: p.1, p.2))
    else (parseStrBody r).map (fun p => (c :: p.1, p.2))

def isDigit (c : Char) : Bool := '0' ≤ c && c ≤ '9'

def digitsToNat (ds : Str) : Nat := ds.foldl (fun a c => a * 10 + (c.toNat - 48)) 0

/-- One or more decimal digits. -/
def parseDigits (s : Str) : Option (Str × Str) :=
  let ds := s.takeWhile isDigit
  if ds.isEmpty then none else some (ds, s.dropWhile isDigit)

/-- JSON number: optional minus, integer part without leading zeros,
optional fraction, optional exponent; the value is exact (a rational),
standing in for Go's `float64`. -/
def parseNum (s : Str) : Option (ℚ × Str) :=
  let (neg, s1) := match s with
    | '-' :: r => (true, r)
    | _ => (false, s)
  match parseDigits s1 with
  | none => none
  | some (ip, r1) =>
    if ip.length > 1 ∧ ip.headI = '0' then none
    else
      let (fr, r2) : Str × Str := match r1 with
        | '.' :: r => match parseDigits r with
          | some (ds, r') => (ds, r')
          | none => (['.'], r1)   -- sentinel: dot with no digits is an error
        | _ => ([], r1)
      if fr = ['.'] then none
      else
        let expPart : Option (Int × Str) := match r2 with
          | 'e' :: r => match r with
            | '+' :: r' => (parseDigits r').map (fun p => ((digitsToNat p.1 : Int), p.2))
            | '-' :: r' => (parseDigits r').map (fun p => (-(digitsToNat p.1 : Int), p.2))
            | _ => (parseDigits r).map (fun p => ((digitsToNat p.1 : Int), p.2))
          | 'E' :: r => match r with
            | '+' :: r' => (parseDigits r').map (fun p => ((digitsToNat p.1 : Int), p.2))
            | '-' :: r' => (parseDigits r').map (fun p => (-(digitsToNat p.1 : Int), p.2))
            | _ => (parseDigits r).map (fun p => ((digitsToNat p.1 : Int), p.2))
          | _ => some (0, r2)
        match expPart with
        | none => none
        | some (ex, r3) =>
          let mant : Int := (if neg then -1 else 1) * (digitsToNat (ip ++ fr) : Int)
          let e : Int := ex - (fr.length : Int)
          let q : ℚ := if 0 ≤ e then ((mant * 10 ^ e.toNat : Int) : ℚ)
                       else mkRat mant (10 ^ (-e).toNat)
          some (q, r3)

/-- Insert a member parsed at the head of an object body: Go's
`json.Unmarshal` lets a later duplicate key overwrite an earlier one, so
the earlier member is kept only when its key does not reappear. -/
def addFirst (k : Str) (v : Json) (ps : List (Str × Json)) : List (Str × Json) :=
  if k ∈ ps.map Prod.fst then ps else (k, v) :: ps

mutual

/-- Recursive-descent JSON value parser (model of `json.Unmarshal`'s
grammar); the fuel argument dominates the nesting and element count and is
instantiated with the input length, which every recursive step strictly
consumes. -/
def parseVal : Nat → Str → Option (Json × Str)
  | 0, _ => none
  | n + 1, s0 =>
    let s := skipWs s0
    match s with
    | 'n' :: 'u' :: 'l' :: 'l' :: r => some (.null, r)
    | 't' :: 'r' :: 'u' :: 'e' :: r => some (.bool true, r)
    | 'f' :: 'a' :: 'l' :: 's' :: 'e' :: r => some (.bool false, r)
    | '"' :: r => (parseStrBody r).map (fun p => (.str p.1, p.2))
    | '[' :: r =>
      match skipWs r with
      | ']' :: r' => some (.arr [], r')
      | r' => (parseElems n r').map (fun p => (.arr p.1, p.2))
    | '\x7b' :: r =>
      match skipWs r with
      | '\x7d' :: r' => some (.obj [], r')
      | r' => (parseMembers n r').map (fun p => (.obj p.1, p.2))
    | _ => (parseNum s).map (fun p => (.num p.1, p.2))

/-- Comma-separated array elements up to the closing bracket. -/
def parseElems : Nat → Str → Option (List Json × Str)
  | 0, _ => none
  | n + 1, s =>
    match parseVal n s with
    | none => none
    | some (v, r) =>
      match skipWs r with
      | ',' :: r' => (parseElems n r').map (fun p => (v :: p.1, p.2))
      | ']' :: r' => some ([v], r')
      | _ => none

/-- Comma-separated object members up to the closing brace. -/
def parseMembers : Nat → Str → Option (List (Str × Json) × Str)
  | 0, _ => none
  | n + 1, s =>
    match skipWs s with
    | '"' :: r =>
      match parseStrBody r with
      | none => none
      | some (k, r1) =>
        match skipWs r1 with
        | ':' :: r2 =>
          match parseVal n r2 with
          | none => none
          | some (v, r3) =>
            match skipWs r3 with
            | ',' :: r4 => (parseMembers n r4).map (fun p => (addFirst k v p.1, p.2))
            | '\x7d' :: r4 => some ([(k, v)], r4)
            | _ => none
        | _ => none
    | _ => none

end

/-- Model of `json.Unmarshal([]byte(s), &o)`: parse one JSON value and
require only trailing whitespace. -/
def unmarshal (s : Str) : Option Json :=
  match parseVal (s.length + 1) s with
  | none => none
  | some (v, r) => if skipWs r = [] then some v else none

mutual

/-- Model of `reflect.DeepEqual` on unmarshalled dynamic JSON values:
scalars compare by value, slices elementwise in order, and maps by key set
and pointwise values, irrespective of member order. -/
def jeq : Json → Json → Bool
  | .null, .null => true
  | .bool a, .bool b => a == b
  | .num a, .num b => decide (a = b)
  | .str a, .str b => decide (a = b)
  | .arr xs, .arr ys => jeqList xs ys
  | .obj ps, .obj qs => (ps.length == qs.length) && jeqObj ps qs
  | _, _ => false

def jeqList : List Json → List Json → Bool
  | [], [] => true
  | x :: xs, y :: ys => jeq x y && jeqList xs ys
  | _, _ => false

def jeqObj : List (Str × Json) → List (Str × Json) → Bool
  | [], _ => true
  | (k, v) :: ps, qs =>
    (match alookup qs k with
     | some w => jeq v w
     | none => false) && jeqObj ps qs

end

/-- Shallow embedding of `areEqualJSON` from `sbs.go`: both texts must
unmarshal, and then the dynamic values are compared with `DeepEqual`; any
parse failure yields `false`. -/
def areEqualJSON (s1 s2 : Str) : Bool :=
  match unmarshal s1 with
  | none => false
  | some v1 =>
    match unmarshal s2 with
    | none => false
    | some v2 => jeq v1 v2

/-- Backend oracle: the abstract result of `txn.QueryWithVars` on one
backend — the raw JSON text on success, `none` when the call returns an
error. -/
def Oracle := Req → Option Str

/-- Shallow embedding of `runQuery` from `sbs.go`: on error the function
returns the empty string as the payload (`return "", errors.Errorf(...)`),
and the worker uses that payload regardless. -/
def runQuery (backend : Oracle) (r : Req) : Str :=
  match backend r with
  | some j => j
  | none => []

/-- Contribution of one processed request to the `failed` counter:
`atomic.AddUint64(&failed, 1)` exactly when `!areEqualJSON(respL, respR)`. -/
def cmpInc (l rr : Str) : Nat := if areEqualJSON l rr then 0 else 1

/-- Control point of one worker goroutine inside its `for r := range reqCh`
loop.  The shared-state operations of the loop body — taking a request,
the left call, the right call, the atomic `failed` increment decided by
the local comparison, and the atomic `total` increment — happen one at a
time; between `fin` entry and the `total` increment the `failed` counter
is already updated. -/
inductive WStage where
  | idle
  | run1 (r : Req)
  | run2 (r : Req) (l : Str)
  | cmp (r : Req) (l rr : Str)
  | fin
deriving DecidableEq

/-- Shared state of `processLog`: the queued requests not yet taken
(`reqCh`), the control points of the workers, and the two shared
counters. -/
structure Config where
  queue : List Req
  workers : List WStage
  total : Nat
  failed : Nat
deriving DecidableEq

/-- One atomic step of the worker pool.  Any worker (the one at position
`pre.length`) may move; steps of different workers interleave freely. -/
inductive Step (L R : Oracle) : Config → Config → Prop where
  | deq (pre post : List WStage) (r : Req) (q : List Req) (t f : Nat) :
      Step L R ⟨r :: q, pre ++ .idle :: post, t, f⟩ ⟨q, pre ++ .run1 r :: post, t, f⟩
  | left (pre post : List WStage) (r : Req) (q : List Req) (t f : Nat) :
      Step L R ⟨q, pre ++ .run1 r :: post, t, f⟩ ⟨q, pre ++ .run2 r (runQuery L r) :: post, t, f⟩
  | right (pre post : List WStage) (r : Req) (l : Str) (q : List Req) (t f : Nat) :
      Step L R ⟨q, pre ++ .run2 r l :: post, t, f⟩ ⟨q, pre ++ .cmp r l (runQuery R r) :: post, t, f⟩
  | compare (pre post : List WStage) (r : Req) (l rr : Str) (q : List Req) (t f : Nat) :
      Step L R ⟨q, pre ++ .cmp r l rr :: post, t, f⟩ ⟨q, pre ++ .fin :: post, t, f + cmpInc l rr⟩
  | tot (pre post : List WStage) (q : List Req) (t f : Nat) :
      Step L R ⟨q, pre ++ .fin :: post, t, f⟩ ⟨q, pre ++ .idle :: post, t + 1, f⟩

/-- Interleaved executions of the pool. -/
def Reachable (L R : Oracle) : Config → Config → Prop :=
  Relation.ReflTransGen (Step L R)

/-- Start state: the full queue is available, `W` workers are idle, both
counters are zero. -/
def init (reqs : List Req) (W : Nat) : Config :=
  ⟨reqs, List.replicate W .idle, 0, 0⟩

/-- The run is finished: the queue is drained and every worker is back to
`idle` with no in-flight request (`wg.Wait()` has returned). -/
def Final (c : Config) : Prop :=
  c.queue = [] ∧ ∀ w ∈ c.workers, w = WStage.idle

/-- A worker holding an in-flight request counts one. -/
def wWeight : WStage → Nat
  | .idle => 0
  | _ => 1

/-- A worker past its `failed` update but before its `total` update. -/
def finWeight : WStage → Nat
  | .fin => 1
  | _ => 0

def busy (ws : List WStage) : Nat := (ws.map wWeight).sum

def fins (ws : List WStage) : Nat := (ws.map finWeight).sum

/-- The producer goroutine of `processLog`: every scanned line for which
`getReq` succeeds is sent to `reqCh`, in order; lines on which `getReq`
returns an error are skipped (`continue`). -/
def extractOk (l : Str) : Option Req :=
  match getReq l with
  | .ok q vs => some ⟨q, vs⟩
  | _ => none

def producedQueue (lines : List Str) : List Req := lines.filterMap extractOk

theorem busy_append (a b : List WStage) : busy (a ++ b) = busy a + busy b := by
  simp [busy]

theorem fins_append (a b : List WStage) : fins (a ++ b) = fins a + fins b := by
  simp [fins]

theorem busy_cons (w : WStage) (ws : List WStage) : busy (w :: ws) = wWeight w + busy ws := by
  simp [busy]

theorem fins_cons (w : WStage) (ws : List WStage) : fins (w :: ws) = finWeight w + fins ws := by
  simp [fins]

theorem cmpInc_le_one (l rr : Str) : cmpInc l rr ≤ 1 := by
  unfold cmpInc; split <;> omega

/-- The per-configuration counting invariant behind the counter claims:
every request is in exactly one of the queue, an in-flight worker, or the
`total` counter; and `failed` can exceed `total` only by the workers that
have done their `failed` update but not yet their `total` update. -/
def CInv (M : Nat) (c : Config) : Prop :=
  c.total + busy c.workers + c.queue.length = M ∧
  c.failed ≤ c.total + fins c.workers

theorem step_preserves_inv {L R : Oracle} {M : Nat} {c c' : Config}
    (hs : Step L R c c') (hi : CInv M c) : CInv M c' := by
  obtain ⟨h1, h2⟩ := hi
  cases hs <;>
    simp only [CInv, busy_append, fins_append, busy_cons, fins_cons, wWeight, finWeight,
      List.length_cons] at h1 h2 ⊢
  case deq => omega
  case left => omega
  case right => omega
  case compare pre post r l rr q t f =>
    have := cmpInc_le_one l rr
    omega
  case tot => omega

theorem reachable_preserves_inv {L R : Oracle} {M : Nat} {c c' : Config}
    (hr : Reachable L R c c') (hi : CInv M c) : CInv M c' := by
  induction hr with
  | refl => exact hi
  | tail _ hs ih => exact step_preserves_inv hs ih

theorem inv_init (reqs : List Req) (W : Nat) : CInv reqs.length (init reqs W) := by
  constructor
  · simp [init, busy, List.map_replicate, wWeight]
  · simp [init]

theorem busy_of_all_idle {ws : List WStage} (h : ∀ w ∈ ws, w = WStage.idle) : busy ws = 0 := by
  simp only [busy]
  apply List.sum_eq_zero
  intro x hx
  obtain ⟨w, hw, rfl⟩ := List.mem_map.mp hx
  rw [h w hw]; rfl

theorem fins_of_all_idle {ws : List WStage} (h : ∀ w ∈ ws, w = WStage.idle) : fins ws = 0 := by
  simp only [fins]
  apply List.sum_eq_zero
  intro x hx
  obtain ⟨w, hw, rfl⟩ := List.mem_map.mp hx
  rw [h w hw]; rfl

/-- Shared final-state lemma: any finished interleaving of any number of
workers over a queue of `M` requests has `total = M` and `failed ≤ total`. -/
theorem final_counters {L R : Oracle} {reqs : List Req} {W : Nat} {c : Config}
    (hr : Reachable L R (init reqs W) c) (hf : Final c) :
    c.total = reqs.length ∧ c.failed ≤ c.total := by
  have hi := reachable_preserves_inv hr (inv_init reqs W)
  obtain ⟨h1, h2⟩ := hi
  obtain ⟨hq, hw⟩ := hf
  rw [busy_of_all_idle hw] at h1
  rw [fins_of_all_idle hw] at h2
  rw [hq] at h1
  simp at h1
  omega

/-- Both counters are monotone under every atomic step. -/
theorem step_monotone {L R : Oracle} {c c' : Config} (hs : Step L R c c') :
    c.total ≤ c'.total ∧ c.failed ≤ c'.failed := by
  cases hs <;> simp

/-- One full pass of a worker through its loop body for one request:
dequeue, query left, query right, update `failed` as the comparison
dictates, update `total`, and return to the queue. -/
theorem worker_cycle (L R : Oracle) (pre post : List WStage) (r : Req) (q : List Req)
    (t f : Nat) :
    Reachable L R ⟨r :: q, pre ++ .idle :: post, t, f⟩
      ⟨q, pre ++ .idle :: post, t + 1, f + cmpInc (runQuery L r) (runQuery R r)⟩ := by
  apply Relation.ReflTransGen.head (Step.deq pre post r q t f)
  apply Relation.ReflTransGen.head (Step.left pre post r q t f)
  apply Relation.ReflTransGen.head (Step.right pre post r (runQuery L r) q t f)
  apply Relation.ReflTransGen.head (Step.compare pre post r (runQuery L r) (runQuery R r) q t f)
  exact Relation.ReflTransGen.single (Step.tot pre post q t (f + cmpInc (runQuery L r) (runQuery R r)))

theorem areEqualJSON_nil_right (x : Str) : areEqualJSON x [] = false := by
  unfold areEqualJSON
  cases h : unmarshal x with
  | none => rfl
  | some v => rfl

theorem areEqualJSON_nil_left (y : Str) : areEqualJSON [] y = false := rfl

theorem runQuery_none {backend : Oracle} {r : Req} (h : backend r = none) :
    runQuery backend r = [] := by
  unfold runQuery; rw [h]

theorem runQuery_some {backend : Oracle} {r : Req} {j : Str} (h : backend r = some j) :
    runQuery backend r = j := by
  unfold runQuery; rw [h]

/-- Claim C3: if either input fails to unmarshal, `areEqualJSON` returns
`false`; in particular the text consisting of a single opening brace is
unequal to everything, in either argument position. -/
theorem claim_C3 :
    (∀ s1 s2 : Str, unmarshal s1 = none ∨ unmarshal s2 = none → areEqualJSON s1 s2 = false) ∧
    (∀ t : Str, areEqualJSON (strL ("\x7b")) t = false ∧ areEqualJSON t (strL ("\x7b")) = false) := by
  have hgen : ∀ s1 s2 : Str, unmarshal s1 = none ∨ unmarshal s2 = none →
      areEqualJSON s1 s2 = false := by
    intro s1 s2 h
    unfold areEqualJSON
    rcases h with h | h
    · rw [h]
    · cases h1 : unmarshal s1 with
      | none => rfl
      | some v => rw [h]
  refine ⟨hgen, fun t => ⟨hgen _ _ (Or.inl rfl), hgen _ _ (Or.inr rfl)⟩⟩

/-- Witness for C3 at a concrete pair of inputs. -/
theorem claim_C3_witness :
    (unmarshal (strL ("\x7b")) = none ∨ unmarshal (strL ("[1,2]")) = none) ∧
    areEqualJSON (strL ("\x7b")) (strL ("[1,2]")) = false :=
  ⟨Or.inl rfl, claim_C3.1 (strL ("\x7b")) (strL ("[1,2]")) (Or.inl rfl)⟩

/-- Claim C4: when exactly one backend call fails, the failed side's
payload is the empty string, the comparison treats it as invalid JSON and
reports a mismatch, the `failed` counter is incremented, and the worker
completes its cycle and returns to the queue (the run continues). -/
theorem claim_C4 (L R : Oracle) (r : Req) (j : Str)
    (pre post : List WStage) (q : List Req) (t f : Nat)
    (h : (L r = some j ∧ R r = none) ∨ (L r = none ∧ R r = some j)) :
    (runQuery L r = [] ∨ runQuery R r = []) ∧
    areEqualJSON (runQuery L r) (runQuery R r) = false ∧
    Reachable L R ⟨r :: q, pre ++ .idle :: post, t, f⟩
      ⟨q, pre ++ .idle :: post, t + 1, f + 1⟩ := by
  have hfalse : areEqualJSON (runQuery L r) (runQuery R r) = false := by
    rcases h with ⟨hL, hR⟩ | ⟨hL, hR⟩
    · rw [runQuery_none hR]; exact areEqualJSON_nil_right _
    · rw [runQuery_none hL]; exact areEqualJSON_nil_left _
  have hside : runQuery L r = [] ∨ runQuery R r = [] := by
    rcases h with ⟨hL, hR⟩ | ⟨hL, hR⟩
    · exact Or.inr (runQuery_none hR)
    · exact Or.inl (runQuery_none hL)
  refine ⟨hside, hfalse, ?_⟩
  have hc := worker_cycle L R pre post r q t f
  rwa [show cmpInc (runQuery L r) (runQuery R r) = 1 by unfold cmpInc; rw [hfalse]; rfl] at hc

/-- Witness for C4: left returns a concrete payload, right fails. -/
theorem claim_C4_witness :
    ((fun _ => some (strL ("\x7b\"f\":[\x7b\"count\":3\x7d]\x7d")) : Oracle) ⟨strL ("q"), []⟩ =
        some (strL ("\x7b\"f\":[\x7b\"count\":3\x7d]\x7d")) ∧
      (fun _ => none : Oracle) ⟨strL ("q"), []⟩ = none) ∧
    areEqualJSON
        (runQuery (fun _ => some (strL ("\x7b\"f\":[\x7b\"count\":3\x7d]\x7d"))) ⟨strL ("q"), []⟩)
        (runQuery (fun _ => none) ⟨strL ("q"), []⟩) = false ∧
    Reachable (fun _ => some (strL ("\x7b\"f\":[\x7b\"count\":3\x7d]\x7d"))) (fun _ => none)
      ⟨[⟨strL ("q"), []⟩], [] ++ .idle :: [], 0, 0⟩
      ⟨[], [] ++ .idle :: [], 0 + 1, 0 + 1⟩ := by
  have h := claim_C4 (fun _ => some (strL ("\x7b\"f\":[\x7b\"count\":3\x7d]\x7d"))) (fun _ => none)
    ⟨strL ("q"), []⟩ (strL ("\x7b\"f\":[\x7b\"count\":3\x7d]\x7d")) [] [] [] 0 0
    (Or.inl ⟨rfl, rfl⟩)
  exact ⟨⟨rfl, rfl⟩, h.2.1, h.2.2⟩

/-- Claim C9: when both backend calls fail, both payloads are the empty
string, `areEqualJSON` still returns `false` on them, and the query is
counted as failed. -/
theorem claim_C9 (L R : Oracle) (r : Req)
    (pre post : List WStage) (q : List Req) (t f : Nat)
    (hL : L r = none) (hR : R r = none) :
    runQuery L r = [] ∧ runQuery R r = [] ∧
    areEqualJSON (runQuery L r) (runQuery R r) = false ∧
    Reachable L R ⟨r :: q, pre ++ .idle :: post, t, f⟩
      ⟨q, pre ++ .idle :: post, t + 1, f + 1⟩ := by
  have h1 := runQuery_none hL
  have h2 := runQuery_none hR
  have hfalse : areEqualJSON (runQuery L r) (runQuery R r) = false := by
    rw [h1]; exact areEqualJSON_nil_left _
  refine ⟨h1, h2, hfalse, ?_⟩
  have hc := worker_cycle L R pre post r q t f
  rwa [show cmpInc (runQuery L r) (runQuery R r) = 1 by unfold cmpInc; rw [hfalse]; rfl] at hc

/-- Witness for C9 with both oracles failing. -/
theorem claim_C9_witness :
    runQuery (fun _ => none : Oracle) ⟨strL ("q"), []⟩ = [] ∧
    runQuery (fun _ => none : Oracle) ⟨strL ("q"), []⟩ = [] ∧
    areEqualJSON (runQuery (fun _ => none : Oracle) ⟨strL ("q"), []⟩)
      (runQuery (fun _ => none : Oracle) ⟨strL ("q"), []⟩) = false ∧
    Reachable (fun _ => none) (fun _ => none)
      ⟨[⟨strL ("q"), []⟩], [] ++ .idle :: [], 0, 0⟩
      ⟨[], [] ++ .idle :: [], 0 + 1, 0 + 1⟩ :=
  claim_C9 (fun _ => none) (fun _ => none) ⟨strL ("q"), []⟩ [] [] [] 0 0 rfl rfl

/-- Claim C5 (amended): counters are monotone under every step and no
increment is lost — every finished run over `M` queued requests, with any
number of workers and any interleaving, ends with `total = M` and
`0 ≤ failed ≤ total`.  (`failed ≤ total` holds at completion, not at every
intermediate observation point; see the counterexample.) -/
theorem claim_C5 (L R : Oracle) (reqs : List Req) (W : Nat) :
    (∀ c c' : Config, Step L R c c' → c.total ≤ c'.total ∧ c.failed ≤ c'.failed) ∧
    (∀ c : Config, Reachable L R (init reqs W) c → Final c →
      c.total = reqs.length ∧ 0 ≤ c.failed ∧ c.failed ≤ c.total) := by
  refine ⟨fun c c' hs => step_monotone hs, fun c hr hf => ?_⟩
  have h := final_counters hr hf
  exact ⟨h.1, Nat.zero_le _, h.2⟩

/-- Witness for C5 on a completed concrete run (the empty run is already
final). -/
theorem claim_C5_witness :
    (Reachable (fun _ => none) (fun _ => none) (init [] 1) (init [] 1) ∧ Final (init [] 1)) ∧
    (init [] 1).total = ([] : List Req).length ∧
    0 ≤ (init [] 1).failed ∧ (init [] 1).failed ≤ (init [] 1).total := by
  have hfin : Final (init [] 1) := by
    constructor
    · rfl
    · intro w hw
      simp [init] at hw
      exact hw
  exact ⟨⟨Relation.ReflTransGen.refl, hfin⟩,
    (claim_C5 (fun _ => none) (fun _ => none) [] 1).2 (init [] 1) Relation.ReflTransGen.refl hfin⟩

/-- A backend pair for the C5 counterexample: the left call yields `1`,
the right call fails. -/
def oracleOne : Oracle := fun _ => some (strL ("1"))

def oracleFail : Oracle := fun _ => none

def req0 : Req := ⟨strL ("q"), []⟩

/-- Counterexample to C5 as stated: `failed ≤ total` does not hold at
every observation point.  The worker increments `failed` before `total`
(`atomic.AddUint64(&failed, 1)` precedes `atomic.AddUint64(&total, 1)` in
the loop body), so the state just after the `failed` update — at which the
reporter goroutine may read both counters — has `failed = 1 > 0 = total`. -/
theorem claim_C5_counterexample :
    Reachable oracleOne oracleFail (init [req0] 1)
      ⟨[], [WStage.fin], 0, 1⟩ ∧
    ¬ ((⟨[], [WStage.fin], 0, 1⟩ : Config).failed ≤ (⟨[], [WStage.fin], 0, 1⟩ : Config).total) := by
  constructor
  · have h1 : Step oracleOne oracleFail ⟨[req0], [WStage.idle], 0, 0⟩
        ⟨[], [WStage.run1 req0], 0, 0⟩ := Step.deq [] [] req0 [] 0 0
    have h2 : Step oracleOne oracleFail ⟨[], [WStage.run1 req0], 0, 0⟩
        ⟨[], [WStage.run2 req0 (runQuery oracleOne req0)], 0, 0⟩ := Step.left [] [] req0 [] 0 0
    have h3 : Step oracleOne oracleFail
        ⟨[], [WStage.run2 req0 (runQuery oracleOne req0)], 0, 0⟩
        ⟨[], [WStage.cmp req0 (runQuery oracleOne req0) (runQuery oracleFail req0)], 0, 0⟩ :=
      Step.right [] [] req0 (runQuery oracleOne req0) [] 0 0
    have h4 : Step oracleOne oracleFail
        ⟨[], [WStage.cmp req0 (runQuery oracleOne req0) (runQuery oracleFail req0)], 0, 0⟩
        ⟨[], [WStage.fin], 0, 0 + cmpInc (runQuery oracleOne req0) (runQuery oracleFail req0)⟩ :=
      Step.compare [] [] req0 (runQuery oracleOne req0) (runQuery oracleFail req0) [] 0 0
    have heq : (⟨[], [WStage.fin], 0,
        0 + cmpInc (runQuery oracleOne req0) (runQuery oracleFail req0)⟩ : Config) =
        ⟨[], [WStage.fin], 0, 1⟩ := by decide
    rw [heq] at h4
    exact Relation.ReflTransGen.head h1 (Relation.ReflTransGen.head h2
      (Relation.ReflTransGen.head h3 (Relation.ReflTransGen.single h4)))
  · decide

/-- Claim C6: a line on which `getReq` returns an error is silently
skipped by the producer — it is never enqueued, and the counters of any
finished run are exactly those of the run without that line. -/
theorem claim_C6 (L R : Oracle) (pre post : List Str) (l : Str) (W : Nat)
    (he : getReq l = .err) :
    producedQueue (pre ++ l :: post) = producedQueue (pre ++ post) ∧
    (∀ c : Config, Reachable L R (init (producedQueue (pre ++ l :: post)) W) c → Final c →
      c.total = (producedQueue (pre ++ post)).length ∧ c.failed ≤ c.total) := by
  have hnone : extractOk l = none := by
    unfold extractOk; rw [he]
  have hq : producedQueue (pre ++ l :: post) = producedQueue (pre ++ post) := by
    simp [producedQueue, List.filterMap_append, List.filterMap_cons, hnone]
  refine ⟨hq, fun c hr hf => ?_⟩
  have h := final_counters hr hf
  rwa [hq] at h

/-- Witness for C6: a plain text line is dropped and a completed empty run
keeps both counters at zero. -/
theorem claim_C6_witness :
    getReq (strL ("some unrelated text")) = GetRes.err ∧
    producedQueue ([] ++ (strL ("some unrelated text")) :: []) = producedQueue ([] ++ []) ∧
    (∀ c : Config, Reachable (fun _ => none) (fun _ => none)
        (init (producedQueue ([] ++ (strL ("some unrelated text")) :: [])) 1) c → Final c →
      c.total = (producedQueue ([] ++ ([] : List Str))).length ∧ c.failed ≤ c.total) := by
  have he : getReq (strL ("some unrelated text")) = GetRes.err := by decide
  have h := claim_C6 (fun _ => none) (fun _ => none) [] [] (strL ("some unrelated text")) 1 he
  exact ⟨he, h.1, h.2⟩

/-- Claim C7: `getReq` returns its error value exactly when the marker
phrase is absent, the remainder does not contain a quoted query substring,
or unquoting the query fails; in all these cases no request is produced.
(On lines that pass all three stages but contain a malformed binding the
Go code panics instead of returning an error; that outcome is the distinct
`GetRes.panic`.) -/
theorem claim_C7 (s : Str) :
    getReq s = .err ↔
      findAfter marker s = none ∨
      ∃ m1, findAfter marker s = some m1 ∧
        (firstQuoted m1 = none ∨ ∃ c, firstQuoted m1 = some c ∧ unesc c = none) := by
  unfold getReq
  cases h1 : findAfter marker s with
  | none => simp
  | some m1 =>
    cases h2 : firstQuoted m1 with
    | none => simp [h2]
    | some c =>
      cases h3 : unesc c with
      | none => simp [h2, h3]
      | some q =>
        cases h4 : extractPairs (scanVars m1) with
        | none => simp [h2, h3, h4]
        | some ps => simp [h2, h3, h4]

/-- The spec's §8 log line with a binding fragment whose `value` portion is
missing. -/
def panicLine : Str := strL ("Got a query: query:\x7bquery:\"q\" vars:<key:\"a\">\x7d")

/-- Claim C8 (code bug): on a line whose marker, quoted query and unquoting
all succeed but whose binding fragment lacks its `value` portion, `getReq`
does not terminate with an error or a request — `valRe.FindStringSubmatch`
returns nil and `vals[1]` panics with an index-out-of-range. -/
theorem claim_C8 : getReq panicLine = GetRes.panic := by decide

theorem isPrefixOf_eq : ∀ {l s : Str}, l.isPrefixOf s = true ↔ ∃ u, l ++ u = s := by
  intro l
  induction l with
  | nil => intro s; simp [List.isPrefixOf]
  | cons a as ih =>
    intro s
    cases s with
    | nil => simp [List.isPrefixOf]
    | cons b bs =>
      simp only [List.isPrefixOf, Bool.and_eq_true, beq_iff_eq, ih, List.cons_append,
        List.cons.injEq]
      constructor
      · rintro ⟨rfl, u, rfl⟩; exact ⟨u, rfl, rfl⟩
      · rintro ⟨u, rfl, rfl⟩; exact ⟨rfl, u, rfl⟩

theorem findAfter_self (pat rest : Str) : findAfter pat (pat ++ rest) = some rest := by
  unfold findAfter
  rw [if_pos (isPrefixOf_eq.mpr ⟨rest, rfl⟩), List.drop_left]

theorem findAfter_cons_of_ne (pat : Str) (x : Char) (xs : Str)
    (h : pat.isPrefixOf (x :: xs) = false) :
    findAfter pat (x :: xs) = findAfter pat xs := by
  conv_lhs => rw [findAfter.eq_def]
  rw [if_neg (by rw [h]; exact Bool.false_ne_true)]

theorem take_of_take_le {z : Char} {s : Str} {m n : Nat} (hmn : m ≤ n)
    (h : z ∈ s.take m) : z ∈ s.take n := by
  have : s.take m = (s.take n).take m := by rw [List.take_take, Nat.min_eq_left hmn]
  rw [this] at h
  exact List.take_subset _ _ h

/-- The key positioning fact: when the final character `z` of a pattern
occurs neither in the text `pre` before an occurrence of the pattern nor
earlier inside the pattern itself, the leftmost match is that occurrence. -/
theorem findAfter_guard {front : Str} {z : Char} (pre tail : Str)
    (hzpre : z ∉ pre) (hzf : z ∉ front) :
    findAfter (front ++ [z]) (pre ++ ((front ++ [z]) ++ tail)) = some tail := by
  induction pre with
  | nil => simpa using findAfter_self (front ++ [z]) tail
  | cons c pre ih =>
    have hz2 : z ∉ pre := fun h => hzpre (List.mem_cons_of_mem _ h)
    have hnp : (front ++ [z]).isPrefixOf (c :: (pre ++ ((front ++ [z]) ++ tail))) = false := by
      by_contra hb
      have htrue : (front ++ [z]).isPrefixOf (c :: (pre ++ ((front ++ [z]) ++ tail))) = true := by
        cases hx : (front ++ [z]).isPrefixOf (c :: (pre ++ ((front ++ [z]) ++ tail)))
        · exact absurd hx hb
        · rfl
      obtain ⟨u, hu⟩ := isPrefixOf_eq.mp htrue
      set s : Str := c :: (pre ++ ((front ++ [z]) ++ tail)) with hs
      have htake : s.take (front ++ [z]).length = front ++ [z] := by
        rw [← hu, List.take_left]
      have hzin : z ∈ s.take (front.length + 1) := by
        rw [List.length_append, List.length_singleton] at htake
        rw [htake]
        exact List.mem_append_right _ (List.mem_singleton_self z)
      rw [hs, List.take_succ_cons] at hzin
      rcases List.mem_cons.mp hzin with hzc | hzin2
      · exact hzpre (hzc ▸ List.mem_cons_self c pre)
      · rw [List.take_append_eq_append_take] at hzin2
        rcases List.mem_append.mp hzin2 with hzp | hzq
        · exact hz2 (List.take_subset _ _ hzp)
        · rw [List.append_assoc] at hzq
          rcases Nat.le_total (front.length - pre.length) front.length with hle | hge
          · rw [List.take_append_eq_append_take] at hzq
            rcases List.mem_append.mp hzq with hzf2 | hzz
            · exact hzf (List.take_subset _ _ hzf2)
            · rw [Nat.sub_eq_zero_of_le hle, List.take_zero] at hzz
              exact absurd hzz (List.not_mem_nil z)
          · have : front.length - pre.length = front.length := Nat.le_antisymm
              (Nat.sub_le _ _) hge
            rw [this, List.take_append_eq_append_take, Nat.sub_self, List.take_zero,
              List.take_length] at hzq
            rcases List.mem_append.mp hzq with hzf2 | hzz
            · exact hzf hzf2
            · exact absurd hzz (List.not_mem_nil z)
    rw [List.cons_append, findAfter_cons_of_ne _ _ _ hnp]
    exact ih (fun h => hzpre (List.mem_cons_of_mem _ h))

theorem findAfter_none {pat : Str} {z : Char} (hz : z ∈ pat) :
    ∀ {s : Str}, z ∉ s → findAfter pat s = none := by
  intro s
  induction s with
  | nil =>
    intro _
    unfold findAfter
    rw [if_neg]
    intro hp
    obtain ⟨u, hu⟩ := isPrefixOf_eq.mp hp
    have : z ∈ (pat ++ u : Str) := List.mem_append_left _ hz
    rw [hu] at this
    exact absurd this (List.not_mem_nil z)
  | cons x xs ih =>
    intro hzs
    have hnp : pat.isPrefixOf (x :: xs) = false := by
      cases hp : pat.isPrefixOf (x :: xs)
      · rfl
      · obtain ⟨u, hu⟩ := isPrefixOf_eq.mp hp
        have : z ∈ (pat ++ u : Str) := List.mem_append_left _ hz
        rw [hu] at this
        exact absurd this hzs
    rw [findAfter_cons_of_ne _ _ _ hnp]
    exact ih (fun h => hzs (List.mem_cons_of_mem _ h))

theorem breakAt_exact {c : Char} : ∀ {a : Str} (b : Str), c ∉ a →
    breakAt c (a ++ c :: b) = some (a, b) := by
  intro a
  induction a with
  | nil =>
    intro b _
    simp [breakAt]
  | cons x xs ih =>
    intro b hc
    have hx : ¬ x = c := fun h => hc (h ▸ List.mem_cons_self x xs)
    simp only [List.cons_append, breakAt, if_neg hx]
    rw [show (xs.append (c :: b)) = xs ++ c :: b from rfl,
      ih b (fun h => hc (List.mem_cons_of_mem _ h))]

theorem breakAt_none {c : Char} : ∀ {s : Str}, c ∉ s → breakAt c s = none := by
  intro s
  induction s with
  | nil => intro _; rfl
  | cons x xs ih =>
    intro hc
    have hx : ¬ x = c := fun h => hc (h ▸ List.mem_cons_self x xs)
    simp only [breakAt, if_neg hx, ih (fun h => hc (List.mem_cons_of_mem _ h))]

/-- The encoder's quoting of the query text (model of how a query string
is logged in its Go-quoted form inside the assumed log line shape). -/
def escChar (c : Char) : Str :=
  if c = '\\' then ['\\', '\\']
  else if c = '"' then ['\\', '"']
  else if c = '\n' then ['\\', 'n']
  else if c = '\t' then ['\\', 't']
  else if c = '\r' then ['\\', 'r']
  else [c]

def escape (t : Str) : Str := (t.map escChar).flatten

theorem unesc_escChar (c : Char) (r : Str) :
    unesc (escChar c ++ r) = (unesc r).map (fun u => c :: u) := by
  unfold escChar
  by_cases h1 : c = '\\'
  · subst h1; simp [unesc, escCode]
  · rw [if_neg h1]
    by_cases h2 : c = '"'
    · subst h2; simp [unesc, escCode]
    · rw [if_neg h2]
      by_cases h3 : c = '\n'
      · subst h3; simp [unesc, escCode]
      · rw [if_neg h3]
        by_cases h4 : c = '\t'
        · subst h4; simp [unesc, escCode]
        · rw [if_neg h4]
          by_cases h5 : c = '\r'
          · subst h5; simp [unesc, escCode]
          · rw [if_neg h5, List.singleton_append]
            conv_lhs => rw [unesc.eq_def]; simp only []
            rw [if_neg h1]

theorem unesc_escape_append (t r : Str) :
    unesc (escape t ++ r) = (unesc r).map (fun u => t ++ u) := by
  induction t with
  | nil =>
    show unesc (escape [] ++ r) = _
    have h0 : escape ([] : Str) = [] := rfl
    rw [h0, List.nil_append]
    cases unesc r <;> simp
  | cons c t ih =>
    have : escape (c :: t) = escChar c ++ escape t := by
      simp [escape]
    rw [this, List.append_assoc, unesc_escChar, ih]
    cases unesc r <;> simp

theorem unesc_escape (t : Str) : unesc (escape t) = some t := by
  have := unesc_escape_append t []
  simpa [unesc] using this

theorem escChar_chars {x c : Char} (h : x ∈ escChar c) :
    x = c ∨ x = '\\' ∨ x = 'n' ∨ x = 't' ∨ x = 'r' := by
  unfold escChar at h
  by_cases h1 : c = '\\'
  · subst h1; simp at h; tauto
  · rw [if_neg h1] at h
    by_cases h2 : c = '"'
    · subst h2; simp at h; tauto
    · rw [if_neg h2] at h
      by_cases h3 : c = '\n'
      · subst h3; simp at h; tauto
      · rw [if_neg h3] at h
        by_cases h4 : c = '\t'
        · subst h4; simp at h; tauto
        · rw [if_neg h4] at h
          by_cases h5 : c = '\r'
          · subst h5; simp at h; tauto
          · rw [if_neg h5] at h
            simp at h; simp [h]

theorem escape_not_mem {z : Char} {t : Str} (hzt : z ∉ t)
    (hz : z ≠ '\\' ∧ z ≠ 'n' ∧ z ≠ 't' ∧ z ≠ 'r') : z ∉ escape t := by
  intro hmem
  unfold escape at hmem
  rw [List.mem_flatten] at hmem
  obtain ⟨l, hl, hzl⟩ := hmem
  rw [List.mem_map] at hl
  obtain ⟨c, hct, rfl⟩ := hl
  rcases escChar_chars hzl with h | h | h | h | h
  · exact hzt (h ▸ hct)
  · exact hz.1 h
  · exact hz.2.1 h
  · exact hz.2.2.1 h
  · exact hz.2.2.2 h

/-- Interior of a binding fragment between `vars:<` and `>`. -/
def body (p : Str × Str) : Str :=
  patK ++ p.1 ++ ('"' :: ' ' :: patW) ++ p.2 ++ ['"']

/-- The full text `varRe` matches for one binding (`v[0]` in the Go code):
`vars:<key:"k" value:"v">`. -/
def fragMatch (p : Str × Str) : Str := patV ++ body p ++ ['>']

/-- One binding fragment as it appears in the line, preceded by a space. -/
def fragOf (p : Str × Str) : Str := ' ' :: fragMatch p

/-- Modelled from the spec: the assumed log line shape into which a
QueryRequest is encoded (§8: `Got a query: query:\x7bquery:"..."
vars:<key:"$a" value:"1">\x7d`); the query text appears in its Go-quoted
form, the bindings follow in the given order.  The encoder itself is not
part of `sbs.go` — only the extraction side is — so it is built to the
spec's description of the shape. -/
def encodeLine (t : Str) (ps : List (Str × Str)) : Str :=
  marker ++ strL ("\x7bquery:") ++ ('"' :: escape t ++ ['"']) ++
    (ps.map fragOf).flatten ++ ['\x7d']

/-- Query texts for which the quoted form survives the non-greedy
`queryRe`/`varRe` scan: no raw double quote (it would end the regex match
early) and no `<` (a `vars:<...>`-shaped substring of the query text would
be scanned as a binding fragment and crash `getReq`). -/
abbrev WFtext (t : Str) : Prop := '"' ∉ t ∧ '<' ∉ t

/-- Keys/values for which the fragment regexes recover the binding exactly:
no `"` (ends the capture early), no `>` (ends the fragment early), and no
`:` in the key (a key ending in `value:` would make `valRe` match inside
the key portion). -/
abbrev WFpair (p : Str × Str) : Prop :=
  '"' ∉ p.1 ∧ '>' ∉ p.1 ∧ ':' ∉ p.1 ∧ '"' ∉ p.2 ∧ '>' ∉ p.2

theorem fragMatch_eq (p : Str × Str) :
    fragMatch p = patV ++ (patK ++ (p.1 ++ ('"' :: ' ' :: (patW ++ (p.2 ++ ['"', '>']))))) := by
  simp [fragMatch, body, List.append_assoc]

theorem keyOf_fragMatch (p : Str × Str) (hp : WFpair p) : keyOf (fragMatch p) = some p.1 := by
  unfold keyOf
  rw [fragMatch_eq]
  rw [show patK = strL ("key:") ++ ['"'] from rfl]
  rw [findAfter_guard patV _ (by decide) (by decide)]
  show Option.map (fun q => q.1) (breakAt '"' (p.1 ++ '"' :: ' ' :: (patW ++ (p.2 ++ ['"', '>'])))) = some p.1
  rw [show (p.1 ++ '"' :: ' ' :: (patW ++ (p.2 ++ ['"', '>'])) : Str) =
    p.1 ++ '"' :: (' ' :: (patW ++ (p.2 ++ ['"', '>']))) from rfl]
  rw [breakAt_exact _ hp.1]
  rfl

theorem findAfter_patW_kv (s : Str) :
    findAfter patW (patV ++ (patK ++ s)) = findAfter patW s := rfl

theorem findAfter_patW_key (k : Str) (T : Str) (hq : '"' ∉ k) (hc : ':' ∉ k) :
    findAfter patW (k ++ ('"' :: ' ' :: (patW ++ T))) = some T := by
  induction k with
  | nil =>
    show findAfter patW ('"' :: ' ' :: (patW ++ T)) = some T
    rw [findAfter_cons_of_ne patW '"' (' ' :: (patW ++ T)) rfl,
      findAfter_cons_of_ne patW ' ' (patW ++ T) rfl, findAfter_self]
  | cons c k ih =>
    have hq2 : '"' ∉ k := fun h => hq (List.mem_cons_of_mem _ h)
    have hc2 : ':' ∉ k := fun h => hc (List.mem_cons_of_mem _ h)
    have hnp : patW.isPrefixOf (c :: (k ++ ('"' :: ' ' :: (patW ++ T)))) = false := by
      cases hx : patW.isPrefixOf (c :: (k ++ ('"' :: ' ' :: (patW ++ T))))
      · rfl
      · exfalso
        obtain ⟨u, hu⟩ := isPrefixOf_eq.mp hx
        have htake : (c :: (k ++ ('"' :: ' ' :: (patW ++ T)))).take 6 = strL ("value:") := by
          rw [← hu, List.take_append_eq_append_take]
          rw [show patW.length = 7 from rfl]
          norm_num
          decide
        have hcolon : ':' ∈ (c :: (k ++ ('"' :: ' ' :: (patW ++ T)))).take 6 := by
          rw [htake]; decide
        rw [show (c :: (k ++ ('"' :: ' ' :: (patW ++ T)))) =
          (c :: k) ++ ('"' :: ' ' :: (patW ++ T)) from rfl] at hcolon
        rw [List.take_append_eq_append_take] at hcolon
        rcases List.mem_append.mp hcolon with h1 | h2
        · exact hc (List.take_subset _ _ h1)
        · have hm : 6 - (c :: k).length ≤ 5 := by
            simp only [List.length_cons]; omega
          have h5 : ':' ∈ ('"' :: ' ' :: (patW ++ T)).take 5 := take_of_take_le hm h2
          rw [show ('"' :: ' ' :: (patW ++ T)).take 5 =
            ['"', ' ', 'v', 'a', 'l'] from rfl] at h5
          exact absurd h5 (by decide)
    rw [List.cons_append, findAfter_cons_of_ne _ _ _ hnp, ih hq2 hc2]

theorem valOf_fragMatch (p : Str × Str) (hp : WFpair p) : valOf (fragMatch p) = some p.2 := by
  unfold valOf
  rw [fragMatch_eq, findAfter_patW_kv, findAfter_patW_key p.1 (p.2 ++ ['"', '>'])
    hp.1 hp.2.2.1]
  show Option.map (fun q => q.1) (breakAt '"' (p.2 ++ ['"', '>'])) = some p.2
  rw [show (p.2 ++ ['"', '>'] : Str) = p.2 ++ '"' :: ['>'] from rfl]
  rw [breakAt_exact _ hp.2.2.2.1]
  rfl

theorem body_no_gt (p : Str × Str) (hp : WFpair p) : '>' ∉ body p := by
  intro h
  have c1 : '>' ∉ patK := by decide
  have c2 : '>' ∉ patW := by decide
  have c3 : ('>' : Char) ≠ '"' := by decide
  have c4 : ('>' : Char) ≠ ' ' := by decide
  have h1 := hp.2.1
  have h2 := hp.2.2.2.2
  simp only [body, List.mem_append, List.mem_cons, List.mem_singleton] at h
  tauto

theorem scanVarsF_succ_none {s : Str} (m : Nat) (hfa : findAfter patV s = none) :
    scanVarsF (m + 1) s = [] := by
  simp only [scanVarsF, hfa]

theorem scanVarsF_succ_stop {s r : Str} (m : Nat) (hfa : findAfter patV s = some r)
    (hba : breakAt '>' r = none) : scanVarsF (m + 1) s = [] := by
  simp only [scanVarsF, hfa, hba]

theorem scanVarsF_succ_eq {s r bd rest : Str} (m : Nat) (hfa : findAfter patV s = some r)
    (hba : breakAt '>' r = some (bd, rest)) :
    scanVarsF (m + 1) s = (patV ++ bd ++ ['>']) :: scanVarsF m rest := by
  simp only [scanVarsF, hfa, hba]

theorem scanVarsF_encode :
    ∀ (ps : List (Str × Str)) (n : Nat) (pre close : Str),
      '<' ∉ pre → '<' ∉ close → (∀ p ∈ ps, WFpair p) →
      (pre ++ (ps.map fragOf).flatten ++ close).length < n →
      scanVarsF n (pre ++ (ps.map fragOf).flatten ++ close) = ps.map fragMatch := by
  intro ps
  induction ps with
  | nil =>
    intro n pre close hpre hclose _ hn
    simp only [List.map_nil, List.flatten_nil, List.append_nil]
    cases n with
    | zero => rfl
    | succ m =>
      have hno : '<' ∉ pre ++ close := by
        intro h
        rcases List.mem_append.mp h with h | h
        · exact hpre h
        · exact hclose h
      exact scanVarsF_succ_none m (findAfter_none (by decide : '<' ∈ patV) hno)
  | cons p ps ih =>
    intro n pre close hpre hclose hps hn
    have hp := hps p (List.mem_cons_self p ps)
    cases n with
    | zero => simp at hn
    | succ m =>
      have hshape : pre ++ (((p :: ps).map fragOf).flatten) ++ close =
          (pre ++ [' ']) ++ ((strL ("vars:") ++ ['<']) ++
            (body p ++ '>' :: ((ps.map fragOf).flatten ++ close))) := by
        simp [fragOf, fragMatch, show patV = strL ("vars:") ++ ['<'] from rfl,
          List.append_assoc]
      have hpre2 : '<' ∉ pre ++ [' '] := by
        intro h
        rcases List.mem_append.mp h with h | h
        · exact hpre h
        · simp at h
      have hfa : findAfter patV (pre ++ (((p :: ps).map fragOf).flatten) ++ close) =
          some (body p ++ '>' :: ((ps.map fragOf).flatten ++ close)) := by
        rw [hshape, show patV = strL ("vars:") ++ ['<'] from rfl]
        exact findAfter_guard (pre ++ [' ']) _ hpre2 (by decide)
      have hba : breakAt '>' (body p ++ '>' :: ((ps.map fragOf).flatten ++ close)) =
          some (body p, (ps.map fragOf).flatten ++ close) :=
        breakAt_exact _ (body_no_gt p hp)
      rw [scanVarsF_succ_eq m hfa hba, List.map_cons]
      refine congrArg₂ List.cons rfl ?_
      have hlen : ((ps.map fragOf).flatten ++ close).length < m := by
        rw [hshape] at hn
        simp only [List.length_append, List.length_cons, List.length_singleton] at hn ⊢
        omega
      have := ih m [] close (List.not_mem_nil '<') hclose
        (fun q hq => hps q (List.mem_cons_of_mem _ hq)) (by simpa using hlen)
      simpa using this

theorem scanVars_encode (ps : List (Str × Str)) (pre close : Str)
    (hpre : '<' ∉ pre) (hclose : '<' ∉ close) (hps : ∀ p ∈ ps, WFpair p) :
    scanVars (pre ++ (ps.map fragOf).flatten ++ close) = ps.map fragMatch :=
  scanVarsF_encode ps _ pre close hpre hclose hps (Nat.lt_succ_self _)

theorem scanVarsF_agree : ∀ (n m : Nat) (s : Str), s.length < n → s.length < m →
    scanVarsF n s = scanVarsF m s := by
  intro n
  induction n with
  | zero => intro m s h; omega
  | succ n ih =>
    intro m s hn hm
    cases m with
    | zero => omega
    | succ m =>
      cases hfa : findAfter patV s with
      | none => rw [scanVarsF_succ_none n hfa, scanVarsF_succ_none m hfa]
      | some r =>
        cases hba : breakAt '>' r with
        | none => rw [scanVarsF_succ_stop n hfa hba, scanVarsF_succ_stop m hfa hba]
        | some pr =>
          obtain ⟨bd, rest⟩ := pr
          have h1 := findAfter_length hfa
          have h2 := breakAt_length hba
          rw [scanVarsF_succ_eq n hfa hba, scanVarsF_succ_eq m hfa hba]
          exact congrArg₂ List.cons rfl (ih m rest (by omega) (by omega))

/-- Fuel adequacy for `scanVarsF`: any fuel beyond the input length gives
the same matches, so `scanVars` is fuel-independent. -/
theorem scanVarsF_stable (n : Nat) (s : Str) (h : s.length < n) :
    scanVarsF n s = scanVars s :=
  scanVarsF_agree n (s.length + 1) s h (Nat.lt_succ_self _)

theorem extractPairs_fragMatch : ∀ (ps : List (Str × Str)), (∀ p ∈ ps, WFpair p) →
    extractPairs (ps.map fragMatch) = some ps := by
  intro ps
  induction ps with
  | nil => intro _; rfl
  | cons p ps ih =>
    intro hps
    have hp := hps p (List.mem_cons_self p ps)
    simp only [List.map_cons, extractPairs, keyOf_fragMatch p hp, valOf_fragMatch p hp,
      ih (fun q hq => hps q (List.mem_cons_of_mem _ hq))]
    rfl

/-- The central extraction lemma: on a well-formed encoded line, `getReq`
recovers the query text and exactly the bindings of the line, in order. -/
theorem getReq_encodeLine (t : Str) (ps : List (Str × Str))
    (ht : WFtext t) (hps : ∀ p ∈ ps, WFpair p) :
    getReq (encodeLine t ps) = .ok t ps := by
  have hesc1 : '"' ∉ escape t := escape_not_mem ht.1 (by decide)
  have hesc2 : '<' ∉ escape t := escape_not_mem ht.2 (by decide)
  have h0 : encodeLine t ps = marker ++ (strL ("\x7bquery:") ++
      '"' :: (escape t ++ '"' :: ((ps.map fragOf).flatten ++ ['\x7d']))) := by
    simp [encodeLine, List.append_assoc]
  have hm : findAfter marker (encodeLine t ps) = some (strL ("\x7bquery:") ++
      '"' :: (escape t ++ '"' :: ((ps.map fragOf).flatten ++ ['\x7d']))) := by
    rw [h0]; exact findAfter_self _ _
  have hq1 : breakAt '"' (strL ("\x7bquery:") ++
      '"' :: (escape t ++ '"' :: ((ps.map fragOf).flatten ++ ['\x7d']))) =
      some (strL ("\x7bquery:"), escape t ++ '"' :: ((ps.map fragOf).flatten ++ ['\x7d'])) :=
    breakAt_exact _ (by decide)
  have hq2 : breakAt '"' (escape t ++ '"' :: ((ps.map fragOf).flatten ++ ['\x7d'])) =
      some (escape t, (ps.map fragOf).flatten ++ ['\x7d']) :=
    breakAt_exact _ hesc1
  have hfq : firstQuoted (strL ("\x7bquery:") ++
      '"' :: (escape t ++ '"' :: ((ps.map fragOf).flatten ++ ['\x7d']))) = some (escape t) := by
    simp only [firstQuoted, hq1, hq2]
  have hsh : strL ("\x7bquery:") ++
      '"' :: (escape t ++ '"' :: ((ps.map fragOf).flatten ++ ['\x7d'])) =
      (strL ("\x7bquery:") ++ '"' :: (escape t ++ ['"'])) ++
        (ps.map fragOf).flatten ++ ['\x7d'] := by
    simp [List.append_assoc]
  have hsv : scanVars (strL ("\x7bquery:") ++
      '"' :: (escape t ++ '"' :: ((ps.map fragOf).flatten ++ ['\x7d']))) = ps.map fragMatch := by
    rw [hsh]
    apply scanVars_encode
    · intro h
      rcases List.mem_append.mp h with h | h
      · exact absurd h (by decide)
      · rcases List.mem_cons.mp h with h | h
        · exact absurd h (by decide)
        · rcases List.mem_append.mp h with h | h
          · exact hesc2 h
          · exact absurd h (by decide)
    · decide
    · exact hps
  simp only [getReq, hm, hfq, unesc_escape, hsv, extractPairs_fragMatch ps hps]

theorem mapGet_mem : ∀ {ps : List (Str × Str)} {k v : Str},
    mapGet ps k = some v → (k, v) ∈ ps := by
  intro ps
  induction ps with
  | nil => intro k v h; simp [mapGet] at h
  | cons p ps ih =>
    intro k v h
    obtain ⟨k', v'⟩ := p
    simp only [mapGet] at h
    cases hr : mapGet ps k with
    | some w =>
      rw [hr] at h
      injection h with h
      exact List.mem_cons_of_mem _ (h ▸ ih hr)
    | none =>
      rw [hr] at h
      by_cases hk : k' = k
      · rw [if_pos hk] at h
        injection h with h
        rw [← hk, ← h]
        exact List.mem_cons_self _ _
      · rw [if_neg hk] at h
        exact absurd h (by simp)

theorem mapGet_none : ∀ {ps : List (Str × Str)} {k : Str},
    k ∉ ps.map Prod.fst → mapGet ps k = none := by
  intro ps
  induction ps with
  | nil => intro k _; rfl
  | cons p ps ih =>
    intro k hk
    obtain ⟨k', v'⟩ := p
    simp only [List.map_cons, List.mem_cons] at hk
    push_neg at hk
    simp only [mapGet, ih hk.2]
    rw [if_neg (fun h => hk.1 h.symm)]

theorem mapGet_isSome : ∀ {ps : List (Str × Str)} {k : Str},
    k ∈ ps.map Prod.fst → ∃ v, mapGet ps k = some v := by
  intro ps
  induction ps with
  | nil => intro k h; simp at h
  | cons p ps ih =>
    intro k hk
    obtain ⟨k', v'⟩ := p
    simp only [mapGet]
    cases hr : mapGet ps k with
    | some w => exact ⟨w, rfl⟩
    | none =>
      simp only [List.map_cons, List.mem_cons] at hk
      rcases hk with hk | hk
      · exact ⟨v', by rw [if_pos hk.symm]⟩
      · obtain ⟨w, hw⟩ := ih hk
        rw [hw] at hr
        exact absurd hr (by simp)

theorem mapGet_of_mem : ∀ {ps : List (Str × Str)} {k v : Str},
    (ps.map Prod.fst).Nodup → (k, v) ∈ ps → mapGet ps k = some v := by
  intro ps
  induction ps with
  | nil => intro k v _ h; simp at h
  | cons p ps ih =>
    intro k v hnd hm
    obtain ⟨k', v'⟩ := p
    simp only [List.map_cons, List.nodup_cons] at hnd
    rcases List.mem_cons.mp hm with hm | hm
    · injection hm with h1 h2
      simp only [mapGet, mapGet_none (h1 ▸ hnd.1), if_pos h1.symm, h2]
    · simp only [mapGet, ih hnd.2 hm]

theorem mapGet_perm {ps qs : List (Str × Str)}
    (hnd : (ps.map Prod.fst).Nodup) (hperm : qs.Perm ps) (k : Str) :
    mapGet qs k = mapGet ps k := by
  have hnd2 : (qs.map Prod.fst).Nodup := ((hperm.map Prod.fst).nodup_iff).mpr hnd
  cases h : mapGet ps k with
  | some v =>
    exact mapGet_of_mem hnd2 (hperm.mem_iff.mpr (mapGet_mem h))
  | none =>
    apply mapGet_none
    intro hk
    rw [List.mem_map] at hk
    obtain ⟨p, hp, hkp⟩ := hk
    obtain ⟨w, hw⟩ := @mapGet_isSome ps k (by
      rw [List.mem_map]
      exact ⟨p, hperm.mem_iff.mp hp, hkp⟩)
    rw [hw] at h
    exact absurd h (by simp)

theorem mapGet_append_last : ∀ (ps : List (Str × Str)) (k v : Str),
    mapGet (ps ++ [(k, v)]) k = some v := by
  intro ps k v
  induction ps with
  | nil => simp [mapGet]
  | cons p ps ih =>
    obtain ⟨k', v'⟩ := p
    simp only [List.cons_append, mapGet]
    rw [show (ps.append [(k, v)]) = ps ++ [(k, v)] from rfl, ih]

/-- Counterexample to C1 as stated: a query text containing a double quote
is logged in escaped form, the non-greedy `queryRe` match then ends at the
escaped quote, unquoting fails, and `getReq` reports an error instead of
reproducing the request. -/
theorem claim_C1_counterexample :
    getReq (encodeLine (strL ("a\"b")) []) = GetRes.err := by decide

/-- Claim C1 (amended): for query texts without `"` or `<` and bindings
whose keys/values avoid `"`, `>` and (for keys) `:`, with distinct keys,
extraction from the encoded line reproduces the query text exactly and a
variable map with the same lookups as the original, for every order `qs`
of the original bindings `ps`. -/
theorem claim_C1 (t : Str) (ps qs : List (Str × Str))
    (ht : WFtext t) (hps : ∀ p ∈ ps, WFpair p)
    (hnd : (ps.map Prod.fst).Nodup) (hperm : qs.Perm ps) :
    getReq (encodeLine t qs) = .ok t qs ∧ ∀ k, mapGet qs k = mapGet ps k := by
  have hqs : ∀ p ∈ qs, WFpair p := fun p hp => hps p (hperm.mem_iff.mp hp)
  exact ⟨getReq_encodeLine t qs ht hqs, fun k => mapGet_perm hnd hperm k⟩

/-- Witness for C1 (amended) on the spec's example bindings, listed in
reversed order in the line. -/
theorem claim_C1_witness :
    (WFtext (strL ("q(func: has(name))")) ∧
      (∀ p ∈ [(strL ("$a"), strL ("1")), (strL ("$b"), strL ("2"))], WFpair p) ∧
      (([(strL ("$a"), strL ("1")), (strL ("$b"), strL ("2"))].map Prod.fst).Nodup) ∧
      ([(strL ("$b"), strL ("2")), (strL ("$a"), strL ("1"))].Perm
        [(strL ("$a"), strL ("1")), (strL ("$b"), strL ("2"))])) ∧
    (getReq (encodeLine (strL ("q(func: has(name))"))
        [(strL ("$b"), strL ("2")), (strL ("$a"), strL ("1"))]) =
      .ok (strL ("q(func: has(name))"))
        [(strL ("$b"), strL ("2")), (strL ("$a"), strL ("1"))] ∧
      ∀ k, mapGet [(strL ("$b"), strL ("2")), (strL ("$a"), strL ("1"))] k =
        mapGet [(strL ("$a"), strL ("1")), (strL ("$b"), strL ("2"))] k) :=
  ⟨⟨by decide, by decide, by decide, by decide⟩,
    claim_C1 (strL ("q(func: has(name))"))
      [(strL ("$a"), strL ("1")), (strL ("$b"), strL ("2"))]
      [(strL ("$b"), strL ("2")), (strL ("$a"), strL ("1"))]
      (by decide) (by decide) (by decide) (by decide)⟩

/-- Claim C10: when the same key occurs in several well-formed binding
fragments, `getReq` succeeds without error and the map binds the key to
the value of the last fragment in the line (Go-map overwrite). -/
theorem claim_C10 (t : Str) (ps1 ps2 : List (Str × Str)) (k v1 v2 : Str)
    (ht : WFtext t)
    (hps : ∀ p ∈ ps1 ++ ((k, v1) :: (ps2 ++ [(k, v2)])), WFpair p) :
    getReq (encodeLine t (ps1 ++ ((k, v1) :: (ps2 ++ [(k, v2)])))) =
      .ok t (ps1 ++ ((k, v1) :: (ps2 ++ [(k, v2)]))) ∧
    mapGet (ps1 ++ ((k, v1) :: (ps2 ++ [(k, v2)]))) k = some v2 := by
  constructor
  · exact getReq_encodeLine t _ ht hps
  · rw [show ps1 ++ ((k, v1) :: (ps2 ++ [(k, v2)])) =
      (ps1 ++ (k, v1) :: ps2) ++ [(k, v2)] from by simp]
    exact mapGet_append_last _ k v2

/-- Witness for C10: the key `$a` bound twice; the extracted map returns
the second value. -/
theorem claim_C10_witness :
    (WFtext (strL ("q")) ∧
      (∀ p ∈ ([] : List (Str × Str)) ++ ((strL ("$a"), strL ("1")) ::
        (([] : List (Str × Str)) ++ [(strL ("$a"), strL ("2"))])), WFpair p)) ∧
    (getReq (encodeLine (strL ("q")) (([] : List (Str × Str)) ++ ((strL ("$a"), strL ("1")) ::
        (([] : List (Str × Str)) ++ [(strL ("$a"), strL ("2"))])))) =
      .ok (strL ("q")) (([] : List (Str × Str)) ++ ((strL ("$a"), strL ("1")) ::
        (([] : List (Str × Str)) ++ [(strL ("$a"), strL ("2"))]))) ∧
      mapGet (([] : List (Str × Str)) ++ ((strL ("$a"), strL ("1")) ::
        (([] : List (Str × Str)) ++ [(strL ("$a"), strL ("2"))]))) (strL ("$a")) =
        some (strL ("2"))) :=
  ⟨⟨by decide, by decide⟩,
    claim_C10 (strL ("q")) [] [] (strL ("$a")) (strL ("1")) (strL ("2"))
      (by decide) (by decide)⟩

/-- The specified comparison relation: two JSON values are deeply
structurally equal, ignoring key/member ordering within objects (objects
compare by key set and pointwise values) but respecting array element
ordering and exact scalar equality. -/
inductive JsonEquiv : Json → Json → Prop where
  | null : JsonEquiv .null .null
  | bool (b : Bool) : JsonEquiv (.bool b) (.bool b)
  | num (q : ℚ) : JsonEquiv (.num q) (.num q)
  | str (s : Str) : JsonEquiv (.str s) (.str s)
  | arr (xs ys : List Json) (hlen : xs.length = ys.length)
      (h : ∀ (i : Nat) (h1 : i < xs.length) (h2 : i < ys.length),
        JsonEquiv (xs.get ⟨i, h1⟩) (ys.get ⟨i, h2⟩)) : JsonEquiv (.arr xs) (.arr ys)
  | obj (ps qs : List (Str × Json))
      (hdom : ∀ k, (alookup ps k).isSome ↔ (alookup qs k).isSome)
      (hval : ∀ k v w, alookup ps k = some v → alookup qs k = some w → JsonEquiv v w) :
      JsonEquiv (.obj ps) (.obj qs)

/-- Well-formed dynamic values: every object has pairwise-distinct keys —
the invariant `json.Unmarshal` establishes (duplicate members collapse). -/
inductive WFj : Json → Prop where
  | null : WFj .null
  | bool (b : Bool) : WFj (.bool b)
  | num (q : ℚ) : WFj (.num q)
  | str (s : Str) : WFj (.str s)
  | arr (xs : List Json) (h : ∀ x ∈ xs, WFj x) : WFj (.arr xs)
  | obj (ps : List (Str × Json)) (hnd : (ps.map Prod.fst).Nodup)
      (h : ∀ p ∈ ps, WFj p.2) : WFj (.obj ps)

theorem WFj_arr_elem {xs : List Json} (h : WFj (.arr xs)) : ∀ x ∈ xs, WFj x := by
  cases h; assumption

theorem WFj_obj_nodup {ps : List (Str × Json)} (h : WFj (.obj ps)) :
    (ps.map Prod.fst).Nodup := by
  cases h; assumption

theorem WFj_obj_val {ps : List (Str × Json)} (h : WFj (.obj ps)) : ∀ p ∈ ps, WFj p.2 := by
  cases h; assumption

theorem alookup_mem : ∀ {ps : List (Str × Json)} {k : Str} {v : Json},
    alookup ps k = some v → (k, v) ∈ ps := by
  intro ps
  induction ps with
  | nil => intro k v h; simp [alookup] at h
  | cons p ps ih =>
    intro k v h
    obtain ⟨k', v'⟩ := p
    simp only [alookup] at h
    by_cases hk : k' = k
    · rw [if_pos hk] at h
      injection h with h
      rw [← hk, ← h]
      exact List.mem_cons_self _ _
    · rw [if_neg hk] at h
      exact List.mem_cons_of_mem _ (ih h)

theorem alookup_isSome_iff : ∀ {ps : List (Str × Json)} {k : Str},
    (alookup ps k).isSome = true ↔ k ∈ ps.map Prod.fst := by
  intro ps
  induction ps with
  | nil => intro k; simp [alookup]
  | cons p ps ih =>
    intro k
    obtain ⟨k', v'⟩ := p
    simp only [alookup, List.map_cons, List.mem_cons]
    by_cases hk : k' = k
    · rw [if_pos hk]
      exact ⟨fun _ => Or.inl hk.symm, fun _ => rfl⟩
    · rw [if_neg hk]
      rw [ih]
      constructor
      · exact Or.inr
      · rintro (h | h)
        · exact absurd h.symm hk
        · exact h

theorem alookup_of_mem : ∀ {ps : List (Str × Json)} {k : Str} {v : Json},
    (ps.map Prod.fst).Nodup → (k, v) ∈ ps → alookup ps k = some v := by
  intro ps
  induction ps with
  | nil => intro k v _ h; simp at h
  | cons p ps ih =>
    intro k v hnd hm
    obtain ⟨k', v'⟩ := p
    simp only [List.map_cons, List.nodup_cons] at hnd
    rcases List.mem_cons.mp hm with hm | hm
    · injection hm with h1 h2
      simp only [alookup, if_pos h1.symm, h2]
    · have hk : k' ≠ k := by
        intro hk
        apply hnd.1
        rw [hk]
        exact List.mem_map.mpr ⟨(k, v), hm, rfl⟩
      simp only [alookup, if_neg hk]
      exact ih hnd.2 hm

theorem jeqObj_iff : ∀ (ps qs : List (Str × Json)), jeqObj ps qs = true ↔
    ∀ p ∈ ps, ∃ w, alookup qs p.1 = some w ∧ jeq p.2 w = true := by
  intro ps qs
  induction ps with
  | nil => simp [jeqObj]
  | cons p ps ih =>
    obtain ⟨k, v⟩ := p
    simp only [jeqObj, Bool.and_eq_true, ih, List.mem_cons]
    constructor
    · rintro ⟨h1, h2⟩ q hq
      rcases hq with rfl | hq
      · cases hl : alookup qs k with
        | none => rw [hl] at h1; exact absurd h1 (by simp)
        | some w => rw [hl] at h1; exact ⟨w, rfl, h1⟩
      · exact h2 q hq
    · intro h
      constructor
      · obtain ⟨w, hw, hjw⟩ := h (k, v) (Or.inl rfl)
        rw [hw]; exact hjw
      · intro q hq
        exact h q (Or.inr hq)

theorem jeqList_forall2 : ∀ (xs ys : List Json),
    jeqList xs ys = true ↔ List.Forall₂ (fun a b => jeq a b = true) xs ys := by
  intro xs
  induction xs with
  | nil => intro ys; cases ys <;> simp [jeqList]
  | cons x xs ih =>
    intro ys
    cases ys with
    | nil => simp [jeqList]
    | cons y ys => simp [jeqList, List.forall₂_cons, ih]

theorem equiv_arr_iff (xs ys : List Json) :
    JsonEquiv (.arr xs) (.arr ys) ↔ List.Forall₂ JsonEquiv xs ys := by
  constructor
  · intro h
    cases h with
    | arr _ _ hlen hget => exact List.forall₂_iff_get.mpr ⟨hlen, hget⟩
  · intro h
    obtain ⟨hlen, hget⟩ := List.forall₂_iff_get.mp h
    exact JsonEquiv.arr xs ys hlen hget

theorem forall2_congr_mem {P Q : Json → Json → Prop} :
    ∀ {xs ys : List Json}, (∀ x ∈ xs, ∀ y ∈ ys, (P x y ↔ Q x y)) →
      (List.Forall₂ P xs ys ↔ List.Forall₂ Q xs ys) := by
  intro xs
  induction xs with
  | nil => intro ys _; cases ys <;> simp
  | cons x xs ih =>
    intro ys h
    cases ys with
    | nil => simp
    | cons y ys =>
      simp only [List.forall₂_cons]
      rw [h x (by simp) y (by simp),
        ih (fun a ha b hb => h a (by simp [ha]) b (by simp [hb]))]

theorem jeq_iff_equiv_aux : ∀ (n : Nat) (a b : Json), sizeOf a ≤ n → WFj a → WFj b →
    (jeq a b = true ↔ JsonEquiv a b) := by
  intro n
  induction n with
  | zero =>
    intro a b ha _ _
    exact absurd ha (by cases a <;> simp)
  | succ n ih =>
    intro a b ha hwa hwb
    cases a <;> cases b
    all_goals try exact ⟨fun h => absurd h Bool.false_ne_true, fun h => nomatch h⟩
    case null.null => exact ⟨fun _ => JsonEquiv.null, fun _ => rfl⟩
    case bool.bool b1 b2 =>
      constructor
      · intro h
        have hb : b1 = b2 := by simpa [jeq] using h
        exact hb ▸ JsonEquiv.bool b1
      · intro h
        cases h
        simp [jeq]
    case num.num q1 q2 =>
      constructor
      · intro h
        have hq : q1 = q2 := by simpa [jeq] using h
        exact hq ▸ JsonEquiv.num q1
      · intro h
        cases h
        simp [jeq]
    case str.str s1 s2 =>
      constructor
      · intro h
        have hs : s1 = s2 := by simpa [jeq] using h
        exact hs ▸ JsonEquiv.str s1
      · intro h
        cases h
        simp [jeq]
    case arr.arr xs ys =>
      have hsub : ∀ x ∈ xs, ∀ y ∈ ys, (jeq x y = true ↔ JsonEquiv x y) := by
        intro x hx y hy
        apply ih
        · have h1 := List.sizeOf_lt_of_mem hx
          have h2 : sizeOf (Json.arr xs) ≤ n + 1 := ha
          simp only [Json.arr.sizeOf_spec] at h2
          omega
        · exact WFj_arr_elem hwa x hx
        · exact WFj_arr_elem hwb y hy
      have hje : jeq (Json.arr xs) (Json.arr ys) = jeqList xs ys := by simp [jeq]
      rw [hje, jeqList_forall2, equiv_arr_iff]
      exact forall2_congr_mem hsub
    case obj.obj ps qs =>
      have hnd1 := WFj_obj_nodup hwa
      have hnd2 := WFj_obj_nodup hwb
      have hsub : ∀ p ∈ ps, ∀ w, WFj w → (jeq p.2 w = true ↔ JsonEquiv p.2 w) := by
        intro p hp w hw
        apply ih
        · have h1 := List.sizeOf_lt_of_mem hp
          have h2 : sizeOf (Json.obj ps) ≤ n + 1 := ha
          obtain ⟨k, v⟩ := p
          simp only [Json.obj.sizeOf_spec] at h2
          simp only [Prod.mk.sizeOf_spec] at h1
          show sizeOf v ≤ n
          omega
        · exact WFj_obj_val hwa p hp
        · exact hw
      have hje : jeq (Json.obj ps) (Json.obj qs) =
          ((ps.length == qs.length) && jeqObj ps qs) := by simp [jeq]
      rw [hje, Bool.and_eq_true, beq_iff_eq, jeqObj_iff ps qs]
      constructor
      · rintro ⟨hlen, hobj⟩
        have hdom : ∀ k, (alookup ps k).isSome ↔ (alookup qs k).isSome := by
          intro k
          have hsubk : ps.map Prod.fst ⊆ qs.map Prod.fst := by
            intro k' hk'
            rw [List.mem_map] at hk'
            obtain ⟨p, hp, rfl⟩ := hk'
            obtain ⟨w, hw, _⟩ := hobj p hp
            rw [← alookup_isSome_iff, hw]
            rfl
          have hperm : (ps.map Prod.fst).Perm (qs.map Prod.fst) :=
            (List.subperm_of_subset hnd1 hsubk).perm_of_length_le (by simp [hlen])
          constructor
          · intro hk
            rw [alookup_isSome_iff] at hk ⊢
            exact hperm.mem_iff.mp hk
          · intro hk
            rw [alookup_isSome_iff] at hk ⊢
            exact hperm.mem_iff.mpr hk
        refine JsonEquiv.obj ps qs hdom ?_
        intro k v w hv hw
        obtain ⟨w', hw', hjw'⟩ := hobj (k, v) (alookup_mem hv)
        rw [hw] at hw'
        injection hw' with hww
        rw [← hww] at hjw'
        exact (hsub (k, v) (alookup_mem hv) w
          (WFj_obj_val hwb (k, w) (alookup_mem hw))).mp hjw' 
      · intro h
        cases h with
        | obj _ _ hdom hval =>
          constructor
          · have hext : ∀ k, k ∈ ps.map Prod.fst ↔ k ∈ qs.map Prod.fst := by
              intro k
              rw [← alookup_isSome_iff, ← alookup_isSome_iff]
              exact_mod_cast hdom k
            have hperm := (List.perm_ext_iff_of_nodup hnd1 hnd2).mpr hext
            have hl := hperm.length_eq
            simpa using hl
          · intro p hp
            obtain ⟨k, v⟩ := p
            have hv : alookup ps k = some v := alookup_of_mem hnd1 hp
            have hks : (alookup qs k).isSome := (hdom k).mp (by rw [hv]; rfl)
            obtain ⟨w, hw⟩ := Option.isSome_iff_exists.mp hks
            refine ⟨w, hw, ?_⟩
            exact (hsub (k, v) hp w (WFj_obj_val hwb (k, w) (alookup_mem hw))).mpr
              (hval k v w hv hw)

theorem addFirst_nodup {ps : List (Str × Json)} {k : Str} {v : Json}
    (h : (ps.map Prod.fst).Nodup) : ((addFirst k v ps).map Prod.fst).Nodup := by
  unfold addFirst
  by_cases hmem : k ∈ ps.map Prod.fst
  · rw [if_pos hmem]; exact h
  · rw [if_neg hmem]
    simp only [List.map_cons, List.nodup_cons]
    exact ⟨hmem, h⟩

theorem addFirst_val {ps : List (Str × Json)} {k : Str} {v : Json}
    (hv : WFj v) (h : ∀ p ∈ ps, WFj p.2) : ∀ p ∈ addFirst k v ps, WFj p.2 := by
  unfold addFirst
  by_cases hmem : k ∈ ps.map Prod.fst
  · rw [if_pos hmem]; exact h
  · rw [if_neg hmem]
    intro p hp
    rcases List.mem_cons.mp hp with rfl | hp
    · exact hv
    · exact h p hp

/-- The parser establishes the object-key invariant: every parse result is
well-formed. -/
theorem parse_wf : ∀ (n : Nat),
    (∀ s v r, parseVal n s = some (v, r) → WFj v) ∧
    (∀ s xs r, parseElems n s = some (xs, r) → ∀ x ∈ xs, WFj x) ∧
    (∀ s ps r, parseMembers n s = some (ps, r) →
      (ps.map Prod.fst).Nodup ∧ ∀ p ∈ ps, WFj p.2) := by
  intro n
  induction n with
  | zero =>
    refine ⟨?_, ?_, ?_⟩ <;> intro s a r h <;>
      simp [parseVal, parseElems, parseMembers] at h
  | succ n ih =>
    obtain ⟨ihv, ihe, ihm⟩ := ih
    refine ⟨?_, ?_, ?_⟩
    · intro s v r h
      simp only [parseVal] at h
      split at h
      · simp only [Option.some.injEq, Prod.mk.injEq] at h
        rw [← h.1]; exact WFj.null
      · simp only [Option.some.injEq, Prod.mk.injEq] at h
        rw [← h.1]; exact WFj.bool true
      · simp only [Option.some.injEq, Prod.mk.injEq] at h
        rw [← h.1]; exact WFj.bool false
      · rw [Option.map_eq_some'] at h
        obtain ⟨p, _, hfp⟩ := h
        injection hfp with h1 h2
        rw [← h1]; exact WFj.str p.1
      · split at h
        · simp only [Option.some.injEq, Prod.mk.injEq] at h
          rw [← h.1]
          exact WFj.arr [] (by intro x hx; simp at hx)
        · rw [Option.map_eq_some'] at h
          obtain ⟨p, hp, hfp⟩ := h
          injection hfp with h1 h2
          rw [← h1]
          exact WFj.arr p.1 (ihe _ p.1 p.2 (by rw [hp]))
      · split at h
        · simp only [Option.some.injEq, Prod.mk.injEq] at h
          rw [← h.1]
          exact WFj.obj [] (by simp) (by intro x hx; simp at hx)
        · rw [Option.map_eq_some'] at h
          obtain ⟨p, hp, hfp⟩ := h
          injection hfp with h1 h2
          rw [← h1]
          have := ihm _ p.1 p.2 (by rw [hp])
          exact WFj.obj p.1 this.1 this.2
      · rw [Option.map_eq_some'] at h
        obtain ⟨p, _, hfp⟩ := h
        injection hfp with h1 h2
        rw [← h1]; exact WFj.num p.1
    · intro s xs r h
      simp only [parseElems] at h
      split at h
      · simp at h
      · rename_i v r1 heq
        split at h
        · rw [Option.map_eq_some'] at h
          obtain ⟨p, hp, hfp⟩ := h
          injection hfp with h1 h2
          intro x hx
          rw [← h1] at hx
          rcases List.mem_cons.mp hx with rfl | hx
          · exact ihv s x r1 heq
          · exact ihe _ p.1 p.2 (by rw [hp]) x hx
        · simp only [Option.some.injEq, Prod.mk.injEq] at h
          intro x hx
          rw [← h.1] at hx
          simp only [List.mem_singleton] at hx
          rw [hx]
          exact ihv s v r1 heq
        · simp at h
    · intro s ps r h
      simp only [parseMembers] at h
      split at h
      · rename_i r1 heq0
        split at h
        · simp at h
        · rename_i k r2 heq1
          split at h
          · rename_i r3 heq2
            split at h
            · simp at h
            · rename_i v r4 heq3
              split at h
              · rw [Option.map_eq_some'] at h
                obtain ⟨p, hp, hfp⟩ := h
                injection hfp with h1 h2
                have hrest := ihm _ p.1 p.2 (by rw [hp])
                constructor
                · rw [← h1]
                  exact addFirst_nodup hrest.1
                · rw [← h1]
                  exact addFirst_val (ihv _ v r4 heq3) hrest.2
              · simp only [Option.some.injEq, Prod.mk.injEq] at h
                constructor
                · rw [← h.1]; simp
                · rw [← h.1]
                  intro p hp
                  simp only [List.mem_singleton] at hp
                  rw [hp]
                  exact ihv _ v r4 heq3
              · simp at h
          · simp at h
      · simp at h

theorem unmarshal_wf {s : Str} {v : Json} (h : unmarshal s = some v) : WFj v := by
  unfold unmarshal at h
  split at h
  · simp at h
  · rename_i v' r heq
    split at h
    · injection h with h
      rw [← h]
      exact (parse_wf _).1 s v' r heq
    · simp at h

theorem jeq_iff_equiv {a b : Json} (ha : WFj a) (hb : WFj b) :
    jeq a b = true ↔ JsonEquiv a b :=
  jeq_iff_equiv_aux (sizeOf a) a b (Nat.le_refl _) ha hb

/-- Claim C2: on any two texts that unmarshal successfully, `areEqualJSON`
returns `true` exactly when the parsed values are deeply structurally
equal ignoring object member order and respecting array order; in
particular the two member orders of `\x7b"a":1,"b":2\x7d` are equal while
`[1,2]` and `[2,1]` are not. -/
theorem claim_C2 :
    (∀ (s1 s2 : Str) (v1 v2 : Json), unmarshal s1 = some v1 → unmarshal s2 = some v2 →
      (areEqualJSON s1 s2 = true ↔ JsonEquiv v1 v2)) ∧
    areEqualJSON (strL ("\x7b\"a\":1,\"b\":2\x7d")) (strL ("\x7b\"b\":2,\"a\":1\x7d")) = true ∧
    areEqualJSON (strL ("[1,2]")) (strL ("[2,1]")) = false := by
  refine ⟨?_, by decide, by decide⟩
  intro s1 s2 v1 v2 h1 h2
  unfold areEqualJSON
  rw [h1, h2]
  exact jeq_iff_equiv (unmarshal_wf h1) (unmarshal_wf h2)

/-- Witness for C2: both hypotheses hold at concrete inputs and the
comparator agrees with the equivalence there. -/
theorem claim_C2_witness :
    (unmarshal (strL ("null")) = some Json.null ∧
      unmarshal (strL (" null ")) = some Json.null) ∧
    (areEqualJSON (strL ("null")) (strL (" null ")) = true ↔
      JsonEquiv Json.null Json.null) :=
  ⟨⟨rfl, rfl⟩, claim_C2.1 (strL ("null")) (strL (" null ")) Json.null Json.null rfl rfl⟩
